import Mathlib

/-!
Verification of the SubTract pipeline-orchestration core against its
specification.  The Lean definitions below are shallow embeddings of the
Python sources:

* `src/subtract/core/pipeline_runner.py`  (`PipelineRunner`)
* `src/subtract/core/base_processor.py`   (`BaseProcessor`, `ProcessingResult`)
* `src/subtract/preprocessing/denoiser.py` (`DWIDenoiser`)
* `src/subtract/core/subject_manager.py`  (`SubjectManager.discover_subjects`)
* `src/subtract/utils/bids_utils.py`      (`BIDSLayout.get_subjects`)

Filesystem state, external commands and exceptions are abstracted into
explicit oracle functions passed as arguments: a path-existence predicate
`String → Bool`, a per-step behaviour `String → StepOutcome`, and so on.
Python `float` durations are modelled as exact rationals (the claims under
verification concern aggregation structure, not rounding).  Python `dict`
is modelled as an insertion-ordered association list with the
replace-in-place update semantics of `d[k] = v`.
-/

namespace Subtract

/-- Model of `ProcessingResult` from `base_processor.py`.  The `metrics`
field (`Dict[str, Any]`) is not modelled: no claim mentions it and its
value type is unconstrained in the source.  `warnings` is likewise
dropped (only its default `[]` ever reaches the runner paths modelled
here). -/
structure ProcessingResult where
  success : Bool
  outputs : List String
  execution_time : ℚ
  error_message : Option String
deriving Repr, DecidableEq

/-- Outcome of calling `processor.process(subject_id, session_id)`:
either a returned `ProcessingResult` or a raised exception carrying its
`str(e)` text. -/
inductive StepOutcome where
  | ok (r : ProcessingResult)
  | exc (msg : String)
deriving Repr, DecidableEq

/-- Model of `f" session {session_id}" if session_id else ""` in `run_subject`. -/
def sessionText : Option String → String
  | some sid => " session " ++ sid
  | none => ""

/-- The message built at `pipeline_runner.py:137` when a step raises. -/
def unexpectedErrorMsg (step subj : String) (sess : Option String) (msg : String) : String :=
  "Unexpected error in step " ++ step ++ " for subject " ++ subj ++ sessionText sess ++ ": " ++ msg

/-- The `ProcessingResult` synthesized by `run_subject` when
`processor.process` raises (`pipeline_runner.py:140-146`). -/
def syntheticFailure (step subj : String) (sess : Option String) (msg : String) : ProcessingResult :=
  { success := false
    outputs := []
    execution_time := 0
    error_message := some (unexpectedErrorMsg step subj sess msg) }

/-- The critical-step set from `PipelineRunner._is_critical_step`. -/
def criticalSteps : List String := ["copy_data", "denoise", "eddy"]

/-- Model of `PipelineRunner._is_critical_step`. -/
def is_critical_step (step_name : String) : Bool := criticalSteps.contains step_name

/-- The step names for which `_initialize_processors` has a processor
class, in the order the dictionary is populated.  `connectome` is only
registered when the `ConnectivityMatrix` import succeeded. -/
def implementedSteps (connectomeAvailable : Bool) : List String :=
  ["copy_data", "denoise", "degibbs", "topup", "eddy", "mdt", "mrtrix_prep",
   "tractography", "sift2", "roi_registration"] ++
  (if connectomeAvailable then ["connectome"] else [])

/-- Keys of the `self.processors` dictionary built by
`PipelineRunner._initialize_processors`: a step name gets a processor iff
it is listed in `config.steps_to_run` and an implementation exists. -/
def initialize_processors (steps_to_run : List String) (connectomeAvailable : Bool) : List String :=
  (implementedSteps connectomeAvailable).filter (fun s => steps_to_run.contains s)

/-- One `run_subject` call for a fixed work item, abstracted over the
environment the Python object graph supplies: `hasProc s` is
`s in self.processors`, and `behavior s` is the outcome of
`self.processors[s].process(subject_id, session_id)` (deterministic per
run: the loop calls each processor at most once). -/
structure StepEnv where
  hasProc : String → Bool
  behavior : String → StepOutcome
  subj : String
  sess : Option String

/-- The result the loop body of `run_subject` stores for a registered
step: the processor's own result, or the synthesized failure if the call
raised. -/
def recordedResult (E : StepEnv) (s : String) : ProcessingResult :=
  match E.behavior s with
  | .ok r => r
  | .exc m => syntheticFailure s E.subj E.sess m

/-- Whether the loop `break`s after processing step `s`: only a
registered step can, on a `success=False` result (or a raise) when
`_is_critical_step` holds. -/
def stepStops (E : StepEnv) (s : String) : Bool :=
  E.hasProc s &&
    (match E.behavior s with
     | .ok r => !r.success && is_critical_step s
     | .exc _ => is_critical_step s)

/-- Python `d[k] = v` on an insertion-ordered dictionary: replace the
value in place if the key is present, else append. -/
def dictInsert (m : List (String × α)) (k : String) (v : α) : List (String × α) :=
  if m.any (fun p => p.1 == k) then
    m.map (fun p => if p.1 == k then (k, v) else p)
  else
    m ++ [(k, v)]

/-- The `for step_name in self.config.steps_to_run` loop of
`PipelineRunner.run_subject`, carrying the `results` dictionary:
unregistered names are skipped with a warning; a registered step's result
is recorded; a critical failure (returned or raised) `break`s. -/
def runStepsFrom (E : StepEnv) : List String → List (String × ProcessingResult) → List (String × ProcessingResult)
  | [], acc => acc
  | s :: rest, acc =>
    if E.hasProc s then
      match E.behavior s with
      | .ok r =>
        let acc2 := dictInsert acc s r
        if !r.success && is_critical_step s then acc2 else runStepsFrom E rest acc2
      | .exc m =>
        let acc2 := dictInsert acc s (syntheticFailure s E.subj E.sess m)
        if is_critical_step s then acc2 else runStepsFrom E rest acc2
    else
      runStepsFrom E rest acc

/-- Model of `PipelineRunner.run_subject`: the step loop started on an empty
`results` dictionary. -/
def run_subject (E : StepEnv) (steps_to_run : List String) : List (String × ProcessingResult) :=
  runStepsFrom E steps_to_run []

/-- Structural restatement of the `run_subject` loop used in proofs;
coincides with `run_subject` whenever the configured step list has no
duplicate names (see `run_subject_eq_runFresh`). -/
def runFresh (E : StepEnv) : List String → List (String × ProcessingResult)
  | [] => []
  | s :: rest =>
    if E.hasProc s then
      if stepStops E s then [(s, recordedResult E s)]
      else (s, recordedResult E s) :: runFresh E rest
    else
      runFresh E rest

/-- The per-item result map produced by `run_subject`, keyed by step
name, and the batch collection keyed by subject/session identity. -/
abbrev ResultMap := List (String × ProcessingResult)

/-- Accumulator threaded through the loops of
`PipelineRunner.get_pipeline_summary`. -/
structure SummaryAcc where
  successful_subjects : Nat
  failed_subjects : Nat
  step_counts : List (String × Nat)
  step_successes : List (String × Nat)
  total_execution_time : ℚ

/-- Body of the inner `for step_name, result in subject_results.items()`
loop: initialise the two step counters if absent, bump the attempt
count, bump the success count or clear `subject_success`, and add the
step's execution time to the subject's total. -/
def summarizeStep (st : SummaryAcc × Bool × ℚ) (entry : String × ProcessingResult) : SummaryAcc × Bool × ℚ :=
  let (acc, subject_success, subject_time) := st
  let step_name := entry.1
  let result := entry.2
  let pair :=
    if (acc.step_counts.lookup step_name).isSome then (acc.step_counts, acc.step_successes)
    else (dictInsert acc.step_counts step_name 0, dictInsert acc.step_successes step_name 0)
  let counts0 := pair.1
  let succs0 := pair.2
  let counts1 := dictInsert counts0 step_name (((counts0.lookup step_name).getD 0) + 1)
  if result.success then
    let succs1 := dictInsert succs0 step_name (((succs0.lookup step_name).getD 0) + 1)
    ({ acc with step_counts := counts1, step_successes := succs1 },
     subject_success, subject_time + result.execution_time)
  else
    ({ acc with step_counts := counts1, step_successes := succs0 },
     false, subject_time + result.execution_time)

/-- Body of the outer `for subject_id, subject_results in results.items()`
loop of `get_pipeline_summary`. -/
def summarizeSubject (acc : SummaryAcc) (subject_results : ResultMap) : SummaryAcc :=
  let (acc1, subject_success, subject_time) :=
    subject_results.foldl summarizeStep (acc, true, 0)
  let acc2 :=
    if subject_success then { acc1 with successful_subjects := acc1.successful_subjects + 1 }
    else { acc1 with failed_subjects := acc1.failed_subjects + 1 }
  { acc2 with total_execution_time := acc2.total_execution_time + subject_time }

/-- The summary dictionary returned by `get_pipeline_summary`. -/
structure PipelineSummary where
  total_subjects : Nat
  successful_subjects : Nat
  failed_subjects : Nat
  step_success_rates : List (String × ℚ)
  total_execution_time : ℚ
  average_execution_time : ℚ
deriving Repr, DecidableEq

/-- Model of `PipelineRunner.get_pipeline_summary`: per-subject success and time
aggregation followed by the success-rate and average computations. -/
def get_pipeline_summary (results : List (String × ResultMap)) : PipelineSummary :=
  let acc := results.foldl (fun a p => summarizeSubject a p.2)
    { successful_subjects := 0, failed_subjects := 0, step_counts := [],
      step_successes := [], total_execution_time := 0 }
  let rates := acc.step_counts.foldl
    (fun r p =>
      if p.2 > 0 then
        dictInsert r p.1 ((((acc.step_successes.lookup p.1).getD 0 : ℚ)) / (p.2 : ℚ))
      else r)
    []
  { total_subjects := results.length
    successful_subjects := acc.successful_subjects
    failed_subjects := acc.failed_subjects
    step_success_rates := rates
    total_execution_time := acc.total_execution_time
    average_execution_time :=
      if results.length > 0 then acc.total_execution_time / (results.length : ℚ) else 0 }

/-- Outcome of `SubjectManager.get_subject_sessions` inside the
per-subject `try` of the two fan-out modes: a session list, or an
exception escaping from the subject manager. -/
inductive SessionsOutcome where
  | ok (sessions : List String)
  | exc (msg : String)
deriving Repr, DecidableEq

/-- The `f"{subject_id}_ses-{session_id}"` key used for session work
items. -/
def sessionKey (subject_id session_id : String) : String :=
  subject_id ++ "_ses-" ++ session_id

/-- Batch environment: the session lookup (which may raise) and the
deterministic `run_subject` outcome for each (subject, session) item.
Both fan-out modes call the same `self.run_subject`. -/
structure BatchEnv where
  getSessions : String → SessionsOutcome
  runFor : String → Option String → ResultMap

/-- Body of the `for subject_id in subject_ids` loop of
`PipelineRunner._run_subjects_sequential`: session expansion, or a plain
subject entry, or `all_results[subject_id] = {}` when the subject's
processing raises. -/
def sequential_step (B : BatchEnv) (all_results : List (String × ResultMap)) (subject_id : String) :
    List (String × ResultMap) :=
  match B.getSessions subject_id with
  | .exc _ => dictInsert all_results subject_id []
  | .ok [] => dictInsert all_results subject_id (B.runFor subject_id none)
  | .ok sessions =>
    sessions.foldl
      (fun acc session_id =>
        dictInsert acc (sessionKey subject_id session_id) (B.runFor subject_id (some session_id)))
      all_results

/-- Model of `PipelineRunner._run_subjects_sequential`. -/
def run_subjects_sequential (B : BatchEnv) (subject_ids : List String) : List (String × ResultMap) :=
  subject_ids.foldl (sequential_step B) []

/-- Model of `process_subject_wrapper` from `_run_subjects_parallel`: the
per-worker result for one subject — an empty dictionary when the
subject's processing raises. -/
def process_subject_wrapper (B : BatchEnv) (subject_id : String) : List (String × ResultMap) :=
  match B.getSessions subject_id with
  | .exc _ => []
  | .ok [] => [(subject_id, B.runFor subject_id none)]
  | .ok sessions =>
    sessions.map (fun session_id =>
      (sessionKey subject_id session_id, B.runFor subject_id (some session_id)))

/-- One `all_results.update(subject_results)` of the flattening loop in
`_run_subjects_parallel`. -/
def parallel_step (B : BatchEnv) (all_results : List (String × ResultMap)) (subject_id : String) :
    List (String × ResultMap) :=
  (process_subject_wrapper B subject_id).foldl
    (fun acc p => dictInsert acc p.1 p.2) all_results

/-- Model of `PipelineRunner._run_subjects_parallel` (with joblib available):
workers return `(subject_id, subject_results)` in submission order and
the results are flattened with `all_results.update(subject_results)`. -/
def run_subjects_parallel (B : BatchEnv) (subject_ids : List String) : List (String × ResultMap) :=
  subject_ids.foldl (parallel_step B) []

/-- Model of `BaseProcessor.check_outputs_exist`: all expected outputs exist on
disk.  `exists_` abstracts `Path.exists`, `expected` is the value of
`self.get_expected_outputs(...)`. -/
def check_outputs_exist (exists_ : String → Bool) (expected : List String) : Bool :=
  expected.all exists_

/-- Model of `BaseProcessor.should_skip`: `False` under `force_overwrite`, else
`check_outputs_exist`. -/
def base_should_skip (force_overwrite : Bool) (exists_ : String → Bool) (expected : List String) : Bool :=
  if force_overwrite then false else check_outputs_exist exists_ expected

/-- Outcome of `DWIDenoiser._denoise_file` for one input file:
a produced output, a skip because the output already existed, or a
raised `RuntimeError` (caught by the per-file `except`, which continues
with the remaining files). -/
inductive DenoiseFileOutcome where
  | produced
  | skippedExisting
  | errored (msg : String)
deriving Repr, DecidableEq

/-- Abstract state a `DWIDenoiser` call observes: whether the item's
`dwi` directory exists, the sorted file list `_find_dwi_files` returns,
the per-file `_denoise_file` outcome, a path-existence predicate, the
wall-clock duration, and an optional exception escaping the outer `try`
of `process`. -/
structure DenoiserEnv where
  dwiDirExists : Bool
  dwiFiles : List String
  fileOutcome : String → DenoiseFileOutcome
  exists_ : String → Bool
  elapsed : ℚ
  outerExc : Option String

/-- Model of `DWIDenoiser._get_expected_output_path`: `stem + "_denoised.nii.gz"`
for a `.nii` input, else the name with every `".nii.gz"` occurrence
removed (Python `str.replace`) plus the same tail.  Implemented over the
character list so that it evaluates by `decide`. -/
def removeOcc (pat : List Char) : List Char → List Char
  | [] => []
  | c :: rest =>
    if pat ≠ [] ∧ pat.isPrefixOf (c :: rest) then
      removeOcc pat (rest.drop (pat.length - 1))
    else
      c :: removeOcc pat rest
termination_by l => l.length
decreasing_by
  · simp only [List.length_cons]
    have := List.length_drop (pat.length - 1) rest
    omega
  · simp [List.length_cons]

/-- Name of the denoised output for one input file name (see
`_get_expected_output_path`; `suffix == ".nii"` is modelled as the name
ending in `".nii"`). -/
def denoisedName (f : String) : String :=
  if ".nii".toList.isSuffixOf f.toList then
    ⟨f.toList.dropLast.dropLast.dropLast.dropLast⟩ ++ "_denoised.nii.gz"
  else
    ⟨removeOcc ".nii.gz".toList f.toList⟩ ++ "_denoised.nii.gz"

/-- Model of `DWIDenoiser.get_expected_outputs`: empty when the `dwi` directory
is missing, else the denoised name of every found DWI file. -/
def denoiser_get_expected_outputs (D : DenoiserEnv) : List String :=
  if ¬ D.dwiDirExists then []
  else D.dwiFiles.map denoisedName

/-- Model of `DWIDenoiser.should_skip` (the override in `denoiser.py:306-326`):
`False` under `force_overwrite`, `False` when the expected-output list
is empty, else `True` iff every expected output exists. -/
def denoiser_should_skip (force_overwrite : Bool) (D : DenoiserEnv) : Bool :=
  if force_overwrite then false
  else
    let expected := denoiser_get_expected_outputs D
    if expected.isEmpty then false
    else expected.all D.exists_

/-- Model of `DWIDenoiser.process`: the four `return` sites of `denoiser.py`,
driven by the abstract environment.  The per-file loop counts processed
and skipped files; success is `processed + skipped > 0`; on success the
outputs are the produced files plus (when anything was skipped) the
already-existing expected outputs not yet listed. -/
def denoiser_process (subject_id : String) (D : DenoiserEnv) : ProcessingResult :=
  match D.outerExc with
  | some m =>
    { success := false, outputs := [], execution_time := D.elapsed
      error_message := some ("DWI denoising failed for subject " ++ subject_id ++ ": " ++ m) }
  | none =>
    if ¬ D.dwiDirExists then
      { success := false, outputs := [], execution_time := D.elapsed
        error_message := some "DWI directory not found" }
    else if D.dwiFiles.isEmpty then
      { success := false, outputs := [], execution_time := D.elapsed
        error_message := some "No DWI files found" }
    else
      let processedOutputs :=
        D.dwiFiles.filterMap (fun f =>
          match D.fileOutcome f with
          | .produced => some (denoisedName f)
          | _ => none)
      let files_processed := processedOutputs.length
      let files_skipped :=
        (D.dwiFiles.filter (fun f => D.fileOutcome f = .skippedExisting)).length
      let success := files_processed + files_skipped > 0
      let outputs :=
        if files_skipped > 0 then
          D.dwiFiles.foldl
            (fun acc f =>
              let out := denoisedName f
              if D.exists_ out ∧ ¬ acc.contains out then acc ++ [out] else acc)
            processedOutputs
        else processedOutputs
      { success := success, outputs := outputs, execution_time := D.elapsed
        error_message := if success then none else some "No DWI files found to denoise" }

/-- Regular-expression abstract syntax for the configured
`subject_filter` pattern (`re.compile(self.config.subject_filter)`):
the empty language, the empty string, a single character, alternation,
concatenation, and Kleene star. -/
inductive Rx where
  | emp
  | eps
  | chr (c : Char)
  | alt (a b : Rx)
  | cat (a b : Rx)
  | star (a : Rx)
deriving Repr, DecidableEq

/-- Whether a regex accepts the empty string. -/
def Rx.nullable : Rx → Bool
  | .emp => false
  | .eps => true
  | .chr _ => false
  | .alt a b => a.nullable || b.nullable
  | .cat a b => a.nullable && b.nullable
  | .star _ => true

/-- Brzozowski derivative with respect to one character. -/
def Rx.deriv : Rx → Char → Rx
  | .emp, _ => .emp
  | .eps, _ => .emp
  | .chr c, d => if c = d then .eps else .emp
  | .alt a b, d => .alt (a.deriv d) (b.deriv d)
  | .cat a b, d =>
    if a.nullable then .alt (.cat (a.deriv d) b) (b.deriv d)
    else .cat (a.deriv d) b
  | .star a, d => .cat (a.deriv d) (.star a)

/-- Whole-string (fully anchored) regex acceptance. -/
def rxFullMatchL (r : Rx) : List Char → Bool
  | [] => r.nullable
  | c :: s => rxFullMatchL (r.deriv c) s

/-- Whole-string acceptance on a `String`. -/
def rxFullMatch (r : Rx) (s : String) : Bool := rxFullMatchL r s.toList

/-- Python `re.Pattern.match` truthiness: the pattern matches at the
start of the string — some prefix (possibly empty, possibly proper) is
accepted.  The end of the subject string is not anchored. -/
def reMatchL (r : Rx) : List Char → Bool
  | [] => r.nullable
  | c :: s => r.nullable || reMatchL (r.deriv c) s

/-- Model of `pattern.match(s)` as used by the two discovery routines. -/
def reMatch (r : Rx) (s : String) : Bool := reMatchL r s.toList

/-- Literal regex for a character sequence. -/
def rxLit : List Char → Rx
  | [] => .eps
  | c :: s => .cat (.chr c) (rxLit s)

/-- Model of `a.startswith(b)` over explicit character lists (evaluates by
`decide`, unlike `String.startsWith`). -/
def strStartsWith (a b : String) : Bool := b.toList.isPrefixOf a.toList

/-- Python code-point comparison `a <= b` on strings, written over the
character lists. -/
def lexLe : List Char → List Char → Bool
  | [], _ => true
  | _ :: _, [] => false
  | a :: as, b :: bs => if a < b then true else if b < a then false else lexLe as bs

/-- Python `sorted` on strings: ascending code-point order (duplicates
kept; equal strings are identical, so stability is immaterial).
Modelled by insertion sort so that it evaluates structurally. -/
def orderedInsertStr (s : String) : List String → List String
  | [] => [s]
  | t :: rest => if lexLe s.toList t.toList then s :: t :: rest else t :: orderedInsertStr s rest

/-- See `orderedInsertStr`. -/
def sortedStrings : List String → List String
  | [] => []
  | s :: rest => orderedInsertStr s (sortedStrings rest)

/-- Model of `BIDSLayout.get_subjects`: directory entries named `sub-*`, with the
prefix stripped, optionally filtered by `pattern.match`, sorted.
`entryNames` are the names of the sub-directories of the dataset root. -/
def bids_get_subjects (entryNames : List String) (subject_filter : Option Rx) : List String :=
  let subject_dirs := entryNames.filter (fun n => strStartsWith n "sub-")
  let subjects := subject_dirs.map (fun n => ⟨n.toList.drop 4⟩)
  let subjects :=
    match subject_filter with
    | some p => subjects.filter (fun s => reMatch p s)
    | none => subjects
  sortedStrings subjects

/-- Model of `SubjectManager.discover_subjects`: empty (with an error log) when
the data directory is missing; the BIDS path delegates to
`BIDSLayout.get_subjects`; the fallback path takes non-hidden directory
entries, optionally filtered by `pattern.match`; both end in
`sorted(subjects)`. -/
def discover_subjects (dataDirExists is_bids : Bool) (entryNames : List String)
    (subject_filter : Option Rx) : List String :=
  if ¬ dataDirExists then []
  else
    let subjects :=
      if is_bids then bids_get_subjects entryNames subject_filter
      else
        let subject_dirs := entryNames.filter (fun n => !(strStartsWith n "."))
        match subject_filter with
        | some p => subject_dirs.filter (fun s => reMatch p s)
        | none => subject_dirs
    sortedStrings subjects

/-- Environment for closed instances: every step registered, `copy_data`
fails with a returned result, everything else succeeds. -/
def exampleFailEnv : StepEnv :=
  { hasProc := fun _ => true
    behavior := fun s =>
      if s = "copy_data" then
        .ok { success := false, outputs := [], execution_time := 0,
              error_message := some "no data" }
      else
        .ok { success := true, outputs := [], execution_time := 0, error_message := none }
    subj := "01"
    sess := none }

/-- Environment for closed instances: every step is registered and every
`process` call raises. -/
def exampleRaiseEnv : StepEnv :=
  { hasProc := fun _ => true
    behavior := fun _ => .exc "boom"
    subj := "01"
    sess := none }

/-! ### Association-list utilities -/

theorem lookup_append {α : Type} (l₁ l₂ : List (String × α)) (k : String) :
    (l₁ ++ l₂).lookup k = ((l₁.lookup k).or (l₂.lookup k)) := by
  induction l₁ with
  | nil => simp [List.lookup]
  | cons p rest ih =>
    rcases p with ⟨a, v⟩
    by_cases h : k = a
    · subst h; simp [List.lookup]
    · have hb : (k == a) = false := by simpa using h
      simp [List.lookup, hb, ih]

theorem lookup_eq_none_of_forall {α : Type} (l : List (String × α)) (k : String)
    (h : ∀ p ∈ l, p.1 ≠ k) : l.lookup k = none := by
  induction l with
  | nil => simp [List.lookup]
  | cons p rest ih =>
    have h1 : p.1 ≠ k := h p (List.mem_cons_self p rest)
    have hb : (k == p.1) = false := by
      simpa using fun he => h1 he.symm
    rcases p with ⟨a, v⟩
    simp only [List.lookup, hb]
    exact ih (fun q hq => h q (List.mem_cons_of_mem _ hq))

theorem lookup_some_mem {α : Type} {l : List (String × α)} {k : String} {v : α}
    (h : l.lookup k = some v) : (k, v) ∈ l := by
  induction l with
  | nil => simp [List.lookup] at h
  | cons p rest ih =>
    rcases p with ⟨a, w⟩
    by_cases he : k = a
    · subst he
      simp [List.lookup] at h
      simp [h]
    · have hb : (k == a) = false := by simpa using he
      simp only [List.lookup, hb] at h
      exact List.mem_cons_of_mem _ (ih h)

theorem lookup_none_forall {α : Type} {l : List (String × α)} {k : String}
    (h : l.lookup k = none) : ∀ p ∈ l, p.1 ≠ k := by
  induction l with
  | nil => intro p hp; simp at hp
  | cons p rest ih =>
    rcases p with ⟨a, w⟩
    by_cases he : k = a
    · subst he; simp [List.lookup] at h
    · have hb : (k == a) = false := by simpa using he
      simp only [List.lookup, hb] at h
      intro q hq
      rcases List.mem_cons.mp hq with h1 | h2
      · subst h1; simpa using fun hx => he hx.symm
      · exact ih h q h2

theorem dictInsert_of_lookup_none {α : Type} (m : List (String × α)) (k : String) (v : α)
    (h : m.lookup k = none) : dictInsert m k v = m ++ [(k, v)] := by
  unfold dictInsert
  have hany : m.any (fun p => p.1 == k) = false := by
    rw [List.any_eq_false]
    intro p hp hpk
    exact lookup_none_forall h p hp (by simpa using hpk)
  simp [hany]

/-! ### The `run_subject` loop versus its structural restatement -/

theorem stepStops_eq (E : StepEnv) (s : String) :
    stepStops E s = (E.hasProc s && (!(recordedResult E s).success && is_critical_step s)) := by
  unfold stepStops recordedResult
  cases hb : E.behavior s with
  | ok r => rfl
  | exc m => simp [syntheticFailure]

theorem runStepsFrom_eq_append (E : StepEnv) (steps : List String)
    (acc : List (String × ProcessingResult)) (hnd : steps.Nodup)
    (hdisj : ∀ s ∈ steps, acc.lookup s = none) :
    runStepsFrom E steps acc = acc ++ runFresh E steps := by
  induction steps generalizing acc with
  | nil => simp [runStepsFrom, runFresh]
  | cons s rest ih =>
    have hnd' : rest.Nodup := hnd.of_cons
    have hs_acc : acc.lookup s = none := hdisj s (List.mem_cons_self s rest)
    have hs_rest : s ∉ rest := by
      intro hmem; exact (List.nodup_cons.mp hnd).1 hmem
    have hdisj2 : ∀ t ∈ rest, (acc ++ [(s, recordedResult E s)]).lookup t = none := by
      intro t ht
      rw [lookup_append]
      have h1 : acc.lookup t = none := hdisj t (List.mem_cons_of_mem _ ht)
      have h2 : ([(s, recordedResult E s)] : List (String × ProcessingResult)).lookup t = none := by
        apply lookup_eq_none_of_forall
        intro p hp
        rcases List.mem_singleton.mp hp with rfl
        intro hst
        have : s = t := hst
        exact hs_rest (this ▸ ht)
      simp [h1, h2]
    unfold runStepsFrom runFresh
    by_cases hp : E.hasProc s
    · simp only [hp, if_true]
      cases hb : E.behavior s with
      | ok r =>
        have hrec : recordedResult E s = r := by simp [recordedResult, hb]
        have hins : dictInsert acc s r = acc ++ [(s, r)] :=
          dictInsert_of_lookup_none acc s r hs_acc
        have hstop : stepStops E s = (!r.success && is_critical_step s) := by
          simp [stepStops, hb, hp]
        by_cases hf : (!r.success && is_critical_step s) = true
        · simp only [hins, hf, if_true, hstop, hrec]
        · have hf' : (!r.success && is_critical_step s) = false := by
            simpa using hf
          simp only [hins, hf', if_false, hstop, hrec]
          rw [ih (acc ++ [(s, r)]) hnd' (by simpa [hrec] using hdisj2)]
          simp
      | exc m =>
        have hrec : recordedResult E s = syntheticFailure s E.subj E.sess m := by
          simp [recordedResult, hb]
        have hins : dictInsert acc s (syntheticFailure s E.subj E.sess m)
            = acc ++ [(s, syntheticFailure s E.subj E.sess m)] :=
          dictInsert_of_lookup_none acc s _ hs_acc
        have hstop : stepStops E s = is_critical_step s := by
          simp [stepStops, hb, hp]
        by_cases hf : is_critical_step s = true
        · simp only [hins, hf, if_true, hstop, hrec]
        · have hf' : is_critical_step s = false := by simpa using hf
          simp only [hins, hf', if_false, hstop, hrec]
          rw [ih (acc ++ [(s, syntheticFailure s E.subj E.sess m)]) hnd'
            (by simpa [hrec] using hdisj2)]
          simp
    · have hp' : E.hasProc s = false := by simpa using hp
      simp only [hp', if_false, Bool.false_eq_true]
      exact ih acc hnd' (fun t ht => hdisj t (List.mem_cons_of_mem _ ht))

theorem run_subject_eq_runFresh (E : StepEnv) (steps : List String) (hnd : steps.Nodup) :
    run_subject E steps = runFresh E steps := by
  unfold run_subject
  rw [runStepsFrom_eq_append E steps [] hnd (by intro s _; simp [List.lookup])]
  simp

/-- Every entry of the structural run has a registered key from the step
list and carries that step's recorded result. -/
theorem mem_runFresh (E : StepEnv) (steps : List String) :
    ∀ p ∈ runFresh E steps,
      p.1 ∈ steps ∧ E.hasProc p.1 = true ∧ p.2 = recordedResult E p.1 := by
  induction steps with
  | nil => intro p hp; simp [runFresh] at hp
  | cons s rest ih =>
    intro p hp
    unfold runFresh at hp
    by_cases h : E.hasProc s
    · simp only [h, if_true] at hp
      by_cases hst : stepStops E s = true
      · simp only [hst, if_true] at hp
        rcases List.mem_singleton.mp hp with rfl
        exact ⟨List.mem_cons_self s rest, h, rfl⟩
      · have hst' : stepStops E s = false := by simpa using hst
        simp only [hst', if_false, Bool.false_eq_true] at hp
        rcases List.mem_cons.mp hp with rfl | hmem
        · exact ⟨List.mem_cons_self s rest, h, rfl⟩
        · obtain ⟨h1, h2, h3⟩ := ih p hmem
          exact ⟨List.mem_cons_of_mem _ h1, h2, h3⟩
    · have h' : E.hasProc s = false := by simpa using h
      simp only [h', if_false, Bool.false_eq_true] at hp
      obtain ⟨h1, h2, h3⟩ := ih p hp
      exact ⟨List.mem_cons_of_mem _ h1, h2, h3⟩

/-- A prefix in which no step breaks the loop is processed and then the
rest of the list is processed from where it left off. -/
theorem runFresh_append_of_noStop (E : StepEnv) (pre rest : List String)
    (h : ∀ u ∈ pre, stepStops E u = false) :
    runFresh E (pre ++ rest) = runFresh E pre ++ runFresh E rest := by
  induction pre with
  | nil => simp [runFresh]
  | cons u pre' ih =>
    have hu : stepStops E u = false := h u (List.mem_cons_self u pre')
    have h' : ∀ v ∈ pre', stepStops E v = false := fun v hv => h v (List.mem_cons_of_mem _ hv)
    by_cases hp : E.hasProc u
    · simp only [List.cons_append, runFresh, hp, if_true, hu, if_false, Bool.false_eq_true,
        List.append_eq]
      rw [ih h']
    · have hp' : E.hasProc u = false := by simpa using hp
      simp only [List.cons_append, runFresh, hp', if_false, Bool.false_eq_true]
      exact ih h'

/-- Wholly-unregistered prefixes are skipped. -/
theorem runFresh_skip_unregistered (E : StepEnv) (mid rest : List String)
    (h : ∀ u ∈ mid, E.hasProc u = false) :
    runFresh E (mid ++ rest) = runFresh E rest := by
  induction mid with
  | nil => simp
  | cons u mid' ih =>
    have hu : E.hasProc u = false := h u (List.mem_cons_self u mid')
    simp only [List.cons_append, runFresh, hu, if_false, Bool.false_eq_true]
    exact ih (fun v hv => h v (List.mem_cons_of_mem _ hv))

/-- Dropping one unregistered step from anywhere in the configured list
leaves the run unchanged. -/
theorem runFresh_drop_unregistered (E : StepEnv) (pre post : List String) (s : String)
    (h : E.hasProc s = false) :
    runFresh E (pre ++ s :: post) = runFresh E (pre ++ post) := by
  induction pre with
  | nil => simp [runFresh, h]
  | cons u pre' ih =>
    by_cases hp : E.hasProc u
    · by_cases hst : stepStops E u = true
      · simp [runFresh, hp, hst]
      · have hst' : stepStops E u = false := by simpa using hst
        simp only [List.cons_append, runFresh, hp, if_true, hst', if_false, Bool.false_eq_true,
          List.append_eq]
        rw [ih]
    · have hp' : E.hasProc u = false := by simpa using hp
      simp only [List.cons_append, runFresh, hp', if_false, Bool.false_eq_true]
      exact ih

/-- In a no-stop duplicate-free list every registered step's recorded
result is found by lookup. -/
theorem runFresh_lookup_of_noStop (E : StepEnv) (l : List String) (hnd : l.Nodup)
    (h : ∀ u ∈ l, stepStops E u = false) :
    ∀ u ∈ l, E.hasProc u = true → (runFresh E l).lookup u = some (recordedResult E u) := by
  induction l with
  | nil => intro u hu; simp at hu
  | cons s rest ih =>
    intro u hu hpu
    have hs : stepStops E s = false := h s (List.mem_cons_self s rest)
    have h' : ∀ v ∈ rest, stepStops E v = false := fun v hv => h v (List.mem_cons_of_mem _ hv)
    rcases List.mem_cons.mp hu with rfl | hmem
    · simp only [runFresh, hpu, if_true, hs, if_false, Bool.false_eq_true]
      simp [List.lookup]
    · have hne : u ≠ s := by
        intro he; subst he
        exact (List.nodup_cons.mp hnd).1 hmem
      by_cases hps : E.hasProc s
      · simp only [runFresh, hps, if_true, hs, if_false, Bool.false_eq_true]
        have hb : (u == s) = false := by simpa using hne
        simp only [List.lookup, hb]
        exact ih hnd.of_cons h' u hmem hpu
      · have hps' : E.hasProc s = false := by simpa using hps
        simp only [runFresh, hps', if_false, Bool.false_eq_true]
        exact ih hnd.of_cons h' u hmem hpu

/-! ### Claim theorems -/

/-- C1 (critical fail-fast): for every work item, when the loop
reaches a registered step `s` classified critical whose recorded result
(returned `success=False` or translated from a raise) is a failure, the
failed step itself is recorded, every registered step before it stays
recorded, and no step after it appears in the item's result map. -/
theorem critical_fail_fast (E : StepEnv) (pre post : List String) (s : String)
    (hnd : (pre ++ s :: post).Nodup)
    (hreach : ∀ u ∈ pre, stepStops E u = false)
    (hproc : E.hasProc s = true)
    (hfail : (recordedResult E s).success = false)
    (hcrit : is_critical_step s = true) :
    (run_subject E (pre ++ s :: post)).lookup s = some (recordedResult E s) ∧
    (∀ t ∈ post, (run_subject E (pre ++ s :: post)).lookup t = none) ∧
    (∀ u ∈ pre, E.hasProc u = true →
      (run_subject E (pre ++ s :: post)).lookup u = some (recordedResult E u)) := by
  rw [run_subject_eq_runFresh E _ hnd]
  obtain ⟨hndpre, hndtail, hdisjoint⟩ := List.nodup_append.mp hnd
  have hs_pre : s ∉ pre := fun hmem => hdisjoint hmem (List.mem_cons_self s post)
  have hs_post : s ∉ post := (List.nodup_cons.mp hndtail).1
  have hstop : stepStops E s = true := by
    rw [stepStops_eq]; simp [hproc, hfail, hcrit]
  have hdecomp : runFresh E (pre ++ s :: post) = runFresh E pre ++ [(s, recordedResult E s)] := by
    rw [runFresh_append_of_noStop E pre _ hreach]
    congr 1
    simp [runFresh, hproc, hstop]
  rw [hdecomp]
  have hpre_none : ∀ k, k ∉ pre → (runFresh E pre).lookup k = none := by
    intro k hk
    apply lookup_eq_none_of_forall
    intro p hp he
    exact hk (he ▸ (mem_runFresh E pre p hp).1)
  refine ⟨?_, ?_, ?_⟩
  · rw [lookup_append, hpre_none s hs_pre]
    simp [List.lookup]
  · intro t ht
    have ht_pre : t ∉ pre := fun hmem => hdisjoint hmem (List.mem_cons_of_mem _ ht)
    have ht_ne : (t == s) = false := by
      simp only [beq_eq_false_iff_ne, ne_eq]
      intro he; subst he; exact hs_post ht
    rw [lookup_append, hpre_none t ht_pre]
    simp [List.lookup, ht_ne]
  · intro u hu hpu
    have hlu : (runFresh E pre).lookup u = some (recordedResult E u) :=
      runFresh_lookup_of_noStop E pre hndpre hreach u hu hpu
    rw [lookup_append, hlu]
    rfl

/-- Closed instance of `critical_fail_fast`: with `copy_data` failing
critically, `degibbs` never appears in the result map. -/
theorem critical_fail_fast_witness :
    (run_subject exampleFailEnv (["copy_data"] ++ ["degibbs"])).lookup "degibbs" = none :=
  (critical_fail_fast exampleFailEnv [] ["degibbs"] "copy_data"
    (by decide)
    (by intro u hu; exact absurd hu (List.not_mem_nil u))
    rfl
    (by decide)
    (by decide)).2.1 "degibbs" (by simp)

/-- C3 (exception translation): when a reached registered step's
`process` call raises, the runner records under that step's name a
synthesized result with `success=False`, empty outputs, zero execution
time, and an `error_message` containing the exception text, and then the
run continues (or stops) exactly as for an ordinary failure of that
step's criticality class. -/
theorem exception_translated (E : StepEnv) (pre post : List String) (s m : String)
    (hnd : (pre ++ s :: post).Nodup)
    (hreach : ∀ u ∈ pre, stepStops E u = false)
    (hproc : E.hasProc s = true)
    (hexc : E.behavior s = .exc m) :
    run_subject E (pre ++ s :: post)
      = runFresh E pre ++ (s, syntheticFailure s E.subj E.sess m)
        :: (if is_critical_step s then [] else runFresh E post) ∧
    (run_subject E (pre ++ s :: post)).lookup s = some (syntheticFailure s E.subj E.sess m) ∧
    (syntheticFailure s E.subj E.sess m).success = false ∧
    (syntheticFailure s E.subj E.sess m).outputs = [] ∧
    (syntheticFailure s E.subj E.sess m).execution_time = 0 ∧
    (∃ a : String, (syntheticFailure s E.subj E.sess m).error_message = some (a ++ m)) := by
  obtain ⟨hndpre, hndtail, hdisjoint⟩ := List.nodup_append.mp hnd
  have hs_pre : s ∉ pre := fun hmem => hdisjoint hmem (List.mem_cons_self s post)
  have hrec : recordedResult E s = syntheticFailure s E.subj E.sess m := by
    simp [recordedResult, hexc]
  have hstop : stepStops E s = is_critical_step s := by
    simp [stepStops, hexc, hproc]
  have hdecomp : run_subject E (pre ++ s :: post)
      = runFresh E pre ++ (s, syntheticFailure s E.subj E.sess m)
        :: (if is_critical_step s then [] else runFresh E post) := by
    rw [run_subject_eq_runFresh E _ hnd, runFresh_append_of_noStop E pre _ hreach]
    congr 1
    by_cases hc : is_critical_step s = true
    · simp [runFresh, hproc, hstop, hc, hrec]
    · have hc' : is_critical_step s = false := by simpa using hc
      simp [runFresh, hproc, hstop, hc', hrec]
  refine ⟨hdecomp, ?_, rfl, rfl, rfl, ?_⟩
  · rw [hdecomp, lookup_append]
    have hpre_none : (runFresh E pre).lookup s = none := by
      apply lookup_eq_none_of_forall
      intro p hp he
      exact hs_pre (he ▸ (mem_runFresh E pre p hp).1)
    rw [hpre_none]
    simp [List.lookup]
  · exact ⟨"Unexpected error in step " ++ s ++ " for subject " ++ E.subj
      ++ sessionText E.sess ++ ": ", rfl⟩

/-- Closed instance of `exception_translated`: a raise in the
non-critical `degibbs` step is recorded as a synthesized failure and the
following step still runs. -/
theorem exception_translated_witness :
    run_subject exampleRaiseEnv (["degibbs"] ++ ["topup"])
      = runFresh exampleRaiseEnv [] ++ ("degibbs", syntheticFailure "degibbs" "01" none "boom")
        :: (if is_critical_step "degibbs" then [] else runFresh exampleRaiseEnv ["topup"]) :=
  (exception_translated exampleRaiseEnv [] ["topup"] "degibbs" "boom"
    (by decide)
    (by intro u hu; exact absurd hu (List.not_mem_nil u))
    rfl
    rfl).1

/-- C6 (non-critical continuation): when a reached registered step
`s` that is not critical records a failure (returned or raised), the
next configured step `t` with a registered implementation — the
unregistered names `mid` between them are skipped — is still attempted
and appears in the item's result map with its own recorded result. -/
theorem noncritical_continuation (E : StepEnv) (pre mid post : List String) (s t : String)
    (hnd : (pre ++ s :: (mid ++ t :: post)).Nodup)
    (hreach : ∀ u ∈ pre, stepStops E u = false)
    (hprocs : E.hasProc s = true)
    (hfail : (recordedResult E s).success = false)
    (hncrit : is_critical_step s = false)
    (hmid : ∀ u ∈ mid, E.hasProc u = false)
    (hproct : E.hasProc t = true) :
    (run_subject E (pre ++ s :: (mid ++ t :: post))).lookup t = some (recordedResult E t) := by
  rw [run_subject_eq_runFresh E _ hnd]
  obtain ⟨hndpre, hndtail, hdisjoint⟩ := List.nodup_append.mp hnd
  have ht_tail : t ∈ s :: (mid ++ t :: post) := by
    apply List.mem_cons_of_mem
    exact List.mem_append.mpr (Or.inr (List.mem_cons_self t post))
  have ht_pre : t ∉ pre := fun hmem => hdisjoint hmem ht_tail
  have ht_ne_s : (t == s) = false := by
    simp only [beq_eq_false_iff_ne, ne_eq]
    intro he; subst he
    have := (List.nodup_cons.mp hndtail).1
    exact this (List.mem_append.mpr (Or.inr (List.mem_cons_self t post)))
  have hstops : stepStops E s = false := by
    rw [stepStops_eq]; simp [hncrit]
  rw [runFresh_append_of_noStop E pre _ hreach, lookup_append]
  have hpre_none : (runFresh E pre).lookup t = none := by
    apply lookup_eq_none_of_forall
    intro p hp he
    exact ht_pre (he ▸ (mem_runFresh E pre p hp).1)
  rw [hpre_none]
  have htail : runFresh E (s :: (mid ++ t :: post))
      = (s, recordedResult E s) :: runFresh E (mid ++ t :: post) := by
    simp [runFresh, hprocs, hstops]
  rw [htail, runFresh_skip_unregistered E mid _ hmid]
  simp only [Option.none_or, List.lookup, ht_ne_s]
  by_cases hst : stepStops E t = true
  · simp [runFresh, hproct, hst, List.lookup]
  · have hst' : stepStops E t = false := by simpa using hst
    simp [runFresh, hproct, hst', List.lookup]

/-- Closed instance of `noncritical_continuation`: `degibbs` (not
critical) fails, yet `topup` is still attempted and recorded. -/
theorem noncritical_continuation_witness :
    (run_subject
        { hasProc := fun _ => true
          behavior := fun s =>
            if s = "degibbs" then
              .ok { success := false, outputs := [], execution_time := 0,
                    error_message := some "gibbs failed" }
            else
              .ok { success := true, outputs := [], execution_time := 0, error_message := none }
          subj := "01"
          sess := none }
        (([] : List String) ++ "degibbs" :: (([] : List String) ++ "topup" :: []))).lookup "topup"
      = some { success := true, outputs := [], execution_time := 0, error_message := none } :=
  noncritical_continuation _ [] [] [] "degibbs" "topup"
    (by decide)
    (by intro u hu; exact absurd hu (List.not_mem_nil u))
    rfl
    (by decide)
    (by decide)
    (by intro u hu; exact absurd hu (List.not_mem_nil u))
    rfl

/-- C7 (unregistered step tolerance): a configured step name with no
registered implementation never appears in the item's result map, and
the run is the same as if the name were not configured at all — the
remaining configured steps are still processed in order. -/
theorem unregistered_step_skipped (E : StepEnv) (pre post : List String) (s : String)
    (hnd : (pre ++ s :: post).Nodup)
    (hproc : E.hasProc s = false) :
    (run_subject E (pre ++ s :: post)).lookup s = none ∧
    run_subject E (pre ++ s :: post) = run_subject E (pre ++ post) := by
  have hnd' : (pre ++ post).Nodup := by
    refine List.Nodup.sublist ?_ hnd
    exact (List.sublist_cons_self s post).append_left pre
  constructor
  · rw [run_subject_eq_runFresh E _ hnd]
    cases hlk : (runFresh E (pre ++ s :: post)).lookup s with
    | none => rfl
    | some v =>
      have hmem := lookup_some_mem hlk
      have := (mem_runFresh E _ _ hmem).2.1
      rw [hproc] at this
      exact absurd this (by simp)
  · rw [run_subject_eq_runFresh E _ hnd, run_subject_eq_runFresh E _ hnd']
    exact runFresh_drop_unregistered E pre post s hproc

/-- Closed instance of `unregistered_step_skipped`: the name
`connectome` with no processor leaves no entry and drops out of the
run. -/
theorem unregistered_step_skipped_witness :
    (run_subject
        { hasProc := fun s => !(s = "connectome")
          behavior := fun _ =>
            .ok { success := true, outputs := [], execution_time := 0, error_message := none }
          subj := "01"
          sess := none }
        (["sift2"] ++ "connectome" :: ["roi_registration"])).lookup "connectome" = none :=
  (unregistered_step_skipped _ ["sift2"] ["roi_registration"] "connectome"
    (by decide) (by decide)).1

theorem mem_dictInsert {α : Type} {m : List (String × α)} {k : String} {v : α} {p : String × α}
    (h : p ∈ dictInsert m k v) : p ∈ m ∨ p = (k, v) := by
  unfold dictInsert at h
  by_cases hany : m.any (fun q => q.1 == k) = true
  · simp only [hany, if_true] at h
    rcases List.mem_map.mp h with ⟨q, hq, hfq⟩
    by_cases hqk : (q.1 == k) = true
    · right; rw [← hfq]; simp [hqk]
    · left
      have hqk' : (q.1 == k) = false := by simpa using hqk
      rw [← hfq]; simpa [hqk'] using hq
  · rw [if_neg hany] at h
    rcases List.mem_append.mp h with h1 | h2
    · exact Or.inl h1
    · exact Or.inr (List.mem_singleton.mp h2)

/-- The error-message/success pairing is preserved through the whole
`run_subject` loop: processor results carry it by hypothesis, and the
synthesized raise-translation failure carries it by construction. -/
theorem wellformed_runStepsFrom (E : StepEnv)
    (hb : ∀ s r, E.behavior s = .ok r → r.error_message.isSome = !r.success)
    (steps : List String) :
    ∀ acc, (∀ p ∈ acc, p.2.error_message.isSome = !p.2.success) →
      ∀ p ∈ runStepsFrom E steps acc, p.2.error_message.isSome = !p.2.success := by
  induction steps with
  | nil => intro acc hacc p hp; exact hacc p hp
  | cons s rest ih =>
    intro acc hacc p hp
    unfold runStepsFrom at hp
    by_cases hps : E.hasProc s
    · simp only [hps, if_true] at hp
      cases hbeh : E.behavior s with
      | ok r =>
        simp only [hbeh] at hp
        have hacc2 : ∀ q ∈ dictInsert acc s r, q.2.error_message.isSome = !q.2.success := by
          intro q hq
          rcases mem_dictInsert hq with hq1 | hq2
          · exact hacc q hq1
          · rw [hq2]; exact hb s r hbeh
        by_cases hf : (!r.success && is_critical_step s) = true
        · simp only [hf, if_true] at hp
          exact hacc2 p hp
        · have hf' : (!r.success && is_critical_step s) = false := by simpa using hf
          simp only [hf', if_false, Bool.false_eq_true] at hp
          exact ih _ hacc2 p hp
      | exc m =>
        simp only [hbeh] at hp
        have hacc2 : ∀ q ∈ dictInsert acc s (syntheticFailure s E.subj E.sess m),
            q.2.error_message.isSome = !q.2.success := by
          intro q hq
          rcases mem_dictInsert hq with hq1 | hq2
          · exact hacc q hq1
          · rw [hq2]; rfl
        by_cases hf : is_critical_step s = true
        · simp only [hf, if_true] at hp
          exact hacc2 p hp
        · have hf' : is_critical_step s = false := by simpa using hf
          simp only [hf', if_false, Bool.false_eq_true] at hp
          exact ih _ hacc2 p hp
    · have hps' : E.hasProc s = false := by simpa using hps
      simp only [hps', if_false, Bool.false_eq_true] at hp
      exact ih acc hacc p hp

/-- C9 (result invariant): `error_message` is set exactly when
`success` is `False` — the modelled `DWIDenoiser.process` returns only
such results, and every result the runner records satisfies the
invariant provided the registered processors' returned results do (the
synthesized raise-translation failures always do). -/
theorem recorded_results_wellformed :
    (∀ (subject_id : String) (D : DenoiserEnv),
      (denoiser_process subject_id D).error_message.isSome
        = !(denoiser_process subject_id D).success) ∧
    (∀ (E : StepEnv) (steps : List String),
      (∀ s r, E.behavior s = .ok r → r.error_message.isSome = !r.success) →
      ∀ p ∈ run_subject E steps, p.2.error_message.isSome = !p.2.success) := by
  constructor
  · intro subject_id D
    unfold denoiser_process
    cases D.outerExc with
    | some m => rfl
    | none =>
      by_cases h1 : D.dwiDirExists
      · by_cases h2 : D.dwiFiles.isEmpty
        · simp [h1, h2]
        · simp only [h1, not_true, if_false, h2, Bool.false_eq_true]
          by_cases hs : ((D.dwiFiles.filterMap (fun f =>
              match D.fileOutcome f with
              | .produced => some (denoisedName f)
              | _ => none)).length
            + (D.dwiFiles.filter (fun f => D.fileOutcome f = .skippedExisting)).length > 0)
          · simp [hs]
          · simp [hs]
      · simp [h1]
  · intro E steps hb p hp
    exact wellformed_runStepsFrom E hb steps [] (by intro q hq; simp at hq) p hp

/-- Closed instance of `recorded_results_wellformed`: the synthesized
failure recorded for a raising `degibbs` step satisfies the invariant. -/
theorem recorded_results_wellformed_witness :
    (("degibbs", syntheticFailure "degibbs" "01" none "boom")
        : String × ProcessingResult).2.error_message.isSome
      = !("degibbs", syntheticFailure "degibbs" "01" none "boom").2.success :=
  recorded_results_wellformed.2 exampleRaiseEnv ["degibbs"]
    (by intro s r h; exact absurd h (by simp [exampleRaiseEnv]))
    ("degibbs", syntheticFailure "degibbs" "01" none "boom")
    (by simp [run_subject, runStepsFrom, exampleRaiseEnv, dictInsert, is_critical_step,
      criticalSteps])

theorem summarizeStep_success_flag (st : SummaryAcc × Bool × ℚ) (entry : String × ProcessingResult) :
    (summarizeStep st entry).2.1 = (st.2.1 && entry.2.success) := by
  rcases st with ⟨acc, b, q⟩
  by_cases hs : entry.2.success
  · simp [summarizeStep, hs]
  · have hs' : entry.2.success = false := by simpa using hs
    simp [summarizeStep, hs']

theorem summarizeStep_counts (st : SummaryAcc × Bool × ℚ) (entry : String × ProcessingResult) :
    (summarizeStep st entry).1.successful_subjects = st.1.successful_subjects ∧
    (summarizeStep st entry).1.failed_subjects = st.1.failed_subjects := by
  rcases st with ⟨acc, b, q⟩
  by_cases hs : entry.2.success
  · simp [summarizeStep, hs]
  · have hs' : entry.2.success = false := by simpa using hs
    simp [summarizeStep, hs']

theorem foldl_summarizeStep_flag (m : List (String × ProcessingResult)) :
    ∀ st : SummaryAcc × Bool × ℚ,
      (m.foldl summarizeStep st).2.1 = (st.2.1 && m.all (fun p => p.2.success)) := by
  induction m with
  | nil => intro st; simp
  | cons p m' ih =>
    intro st
    simp only [List.foldl_cons, List.all_cons]
    rw [ih (summarizeStep st p), summarizeStep_success_flag]
    rw [Bool.and_assoc]

theorem foldl_summarizeStep_counts (m : List (String × ProcessingResult)) :
    ∀ st : SummaryAcc × Bool × ℚ,
      (m.foldl summarizeStep st).1.successful_subjects = st.1.successful_subjects ∧
      (m.foldl summarizeStep st).1.failed_subjects = st.1.failed_subjects := by
  induction m with
  | nil => intro st; simp
  | cons p m' ih =>
    intro st
    simp only [List.foldl_cons]
    obtain ⟨h1, h2⟩ := ih (summarizeStep st p)
    obtain ⟨h3, h4⟩ := summarizeStep_counts st p
    exact ⟨h1.trans h3, h2.trans h4⟩

theorem summarizeSubject_successful (acc : SummaryAcc) (m : ResultMap) :
    (summarizeSubject acc m).successful_subjects
      = acc.successful_subjects + (if m.all (fun q => q.2.success) then 1 else 0) ∧
    (summarizeSubject acc m).failed_subjects
      = acc.failed_subjects + (if m.all (fun q => q.2.success) then 0 else 1) := by
  unfold summarizeSubject
  have hflag := foldl_summarizeStep_flag m (acc, true, 0)
  have hcounts := foldl_summarizeStep_counts m (acc, true, 0)
  simp only [Bool.true_and] at hflag
  by_cases hall : m.all (fun q => q.2.success) = true
  · rw [hall] at hflag
    simp [hflag, hall, hcounts.1, hcounts.2]
  · have hall' : m.all (fun q => q.2.success) = false := by simpa using hall
    rw [hall'] at hflag
    simp [hflag, hall', hcounts.1, hcounts.2]

theorem foldl_summarizeSubject_counts (results : List (String × ResultMap)) :
    ∀ acc : SummaryAcc,
      ((results.foldl (fun a p => summarizeSubject a p.2) acc).successful_subjects
        = acc.successful_subjects
          + (results.filter (fun p => p.2.all (fun q => q.2.success))).length) ∧
      ((results.foldl (fun a p => summarizeSubject a p.2) acc).failed_subjects
        = acc.failed_subjects
          + (results.filter (fun p => !(p.2.all (fun q => q.2.success)))).length) := by
  induction results with
  | nil => intro acc; simp
  | cons p rs ih =>
    intro acc
    simp only [List.foldl_cons, List.filter_cons]
    obtain ⟨h1, h2⟩ := ih (summarizeSubject acc p.2)
    obtain ⟨h3, h4⟩ := summarizeSubject_successful acc p.2
    by_cases hall : p.2.all (fun q => q.2.success) = true
    · simp only [hall, if_true, Bool.not_true, List.length_cons]
      rw [h1, h2, h3, h4]
      simp [hall]
      omega
    · have hall' : p.2.all (fun q => q.2.success) = false := by simpa using hall
      simp only [hall', Bool.not_false, if_true, List.length_cons]
      rw [h1, h2, h3, h4]
      simp [hall']
      omega

theorem length_filter_add_length_filter_not {α : Type} (l : List α) (p : α → Bool) :
    (l.filter p).length + (l.filter (fun a => !(p a))).length = l.length := by
  induction l with
  | nil => simp
  | cons a l' ih =>
    by_cases hp : p a = true
    · simp [List.filter_cons, hp]
      omega
    · have hp' : p a = false := by simpa using hp
      simp [List.filter_cons, hp']
      omega

/-- C4 (aggregation counts): `get_pipeline_summary` counts an item
as successful iff every step result recorded for it has `success=True`
(an item with zero recorded results has `all = true` vacuously and is
counted successful), counts it as failed otherwise, and so
`successful_subjects + failed_subjects = total_subjects`, the number of
items. -/
theorem summary_success_counts (results : List (String × ResultMap)) :
    (get_pipeline_summary results).successful_subjects
      = (results.filter (fun p => p.2.all (fun q => q.2.success))).length ∧
    (get_pipeline_summary results).failed_subjects
      = (results.filter (fun p => !(p.2.all (fun q => q.2.success)))).length ∧
    (get_pipeline_summary results).successful_subjects
        + (get_pipeline_summary results).failed_subjects
      = (get_pipeline_summary results).total_subjects ∧
    (get_pipeline_summary results).total_subjects = results.length := by
  obtain ⟨h1, h2⟩ := foldl_summarizeSubject_counts results
    { successful_subjects := 0, failed_subjects := 0, step_counts := [],
      step_successes := [], total_execution_time := 0 }
  refine ⟨?_, ?_, ?_, rfl⟩
  · simpa [get_pipeline_summary] using h1
  · simpa [get_pipeline_summary] using h2
  · have := length_filter_add_length_filter_not results (fun p => p.2.all (fun q => q.2.success))
    simp only [get_pipeline_summary]
    rw [h1, h2]
    simpa using this

/-- C5 counterexample: when a subject's processing raises (here,
`get_subject_sessions` fails), the sequential mode records the subject
with an empty result map (`all_results[subject_id] = {}`) while the
parallel mode's `all_results.update({})` drops it entirely, so the two
summaries disagree on `total_subjects` and `successful_subjects` for
the same batch. -/
theorem batch_modes_disagree_on_exception :
    (get_pipeline_summary (run_subjects_sequential
        { getSessions := fun _ => .exc "boom", runFor := fun _ _ => [] }
        ["sub01"])).total_subjects = 1 ∧
    (get_pipeline_summary (run_subjects_parallel
        { getSessions := fun _ => .exc "boom", runFor := fun _ _ => [] }
        ["sub01"])).total_subjects = 0 ∧
    (get_pipeline_summary (run_subjects_sequential
        { getSessions := fun _ => .exc "boom", runFor := fun _ _ => [] }
        ["sub01"])).successful_subjects = 1 ∧
    (get_pipeline_summary (run_subjects_parallel
        { getSessions := fun _ => .exc "boom", runFor := fun _ _ => [] }
        ["sub01"])).successful_subjects = 0 :=
  ⟨rfl, rfl, rfl, rfl⟩

/-- C5 amended (concurrent aggregation equivalence, exception-free):
as long as no subject's processing raises, the sequential and parallel
fan-out modes build identical result collections — the parallel workers
are submitted and flattened in subject order and both modes call the
same `run_subject` — and therefore identical `PipelineSummary`
statistics. -/
theorem batch_modes_agree (B : BatchEnv) (subject_ids : List String)
    (h : ∀ sid ∈ subject_ids, ∃ ss, B.getSessions sid = .ok ss) :
    run_subjects_sequential B subject_ids = run_subjects_parallel B subject_ids ∧
    get_pipeline_summary (run_subjects_sequential B subject_ids)
      = get_pipeline_summary (run_subjects_parallel B subject_ids) := by
  have hstep : ∀ (acc : List (String × ResultMap)) (sid : String),
      (∃ ss, B.getSessions sid = .ok ss) →
      sequential_step B acc sid = parallel_step B acc sid := by
    rintro acc sid ⟨ss, hss⟩
    cases ss with
    | nil => simp [sequential_step, parallel_step, hss, process_subject_wrapper]
    | cons s rest =>
      simp [sequential_step, parallel_step, hss, process_subject_wrapper, List.foldl_map]
  have hfold : ∀ (ids : List String) (acc : List (String × ResultMap)),
      (∀ sid ∈ ids, ∃ ss, B.getSessions sid = .ok ss) →
      ids.foldl (sequential_step B) acc = ids.foldl (parallel_step B) acc := by
    intro ids
    induction ids with
    | nil => intro acc _; rfl
    | cons sid rest ih =>
      intro acc hh
      simp only [List.foldl_cons]
      rw [hstep acc sid (hh sid (List.mem_cons_self sid rest))]
      exact ih _ (fun t ht => hh t (List.mem_cons_of_mem _ ht))
  have hmain : run_subjects_sequential B subject_ids = run_subjects_parallel B subject_ids :=
    hfold subject_ids [] h
  exact ⟨hmain, by rw [hmain]⟩

/-- Closed instance of `batch_modes_agree`: a one-subject, no-session,
exception-free batch yields the same collection in both modes. -/
theorem batch_modes_agree_witness :
    run_subjects_sequential
        { getSessions := fun _ => .ok [], runFor := fun _ _ => [] } ["sub01"]
      = run_subjects_parallel
        { getSessions := fun _ => .ok [], runFor := fun _ _ => [] } ["sub01"] :=
  (batch_modes_agree _ ["sub01"] (fun _ _ => ⟨[], rfl⟩)).1

/-- C2 counterexample: the denoise step is a `Step` whose overriding
`should_skip` returns `False` on an empty expected-output list even
though "every path in `get_expected_outputs(item)` exists" holds
vacuously — so the claimed equivalence fails for this Step at the
missing-`dwi`-directory input. -/
theorem should_skip_claim_fails_on_denoiser :
    denoiser_should_skip false
        { dwiDirExists := false, dwiFiles := [], fileOutcome := fun _ => .produced,
          exists_ := fun _ => false, elapsed := 0, outerExc := none }
      = false ∧
    check_outputs_exist (fun _ => false)
        (denoiser_get_expected_outputs
          { dwiDirExists := false, dwiFiles := [], fileOutcome := fun _ => .produced,
            exists_ := fun _ => false, elapsed := 0, outerExc := none })
      = true := by
  constructor <;> rfl

/-- C2 amended: the base `should_skip` is `False` under the global
force-overwrite flag and otherwise `True` iff every expected output
exists; the denoise step's override additionally returns `False` when
its expected-output list is empty and otherwise agrees. -/
theorem should_skip_characterization :
    (∀ (force_overwrite : Bool) (exists_ : String → Bool) (expected : List String),
      base_should_skip force_overwrite exists_ expected
        = (!force_overwrite && check_outputs_exist exists_ expected)) ∧
    (∀ (force_overwrite : Bool) (D : DenoiserEnv),
      denoiser_should_skip force_overwrite D
        = (!force_overwrite && !(denoiser_get_expected_outputs D).isEmpty
            && (denoiser_get_expected_outputs D).all D.exists_)) := by
  constructor
  · intro force_overwrite exists_ expected
    cases force_overwrite <;> simp [base_should_skip]
  · intro force_overwrite D
    cases force_overwrite with
    | false =>
      by_cases h : (denoiser_get_expected_outputs D).isEmpty
      · simp [denoiser_should_skip, h]
      · have h' : (denoiser_get_expected_outputs D).isEmpty = false := by simpa using h
        simp [denoiser_should_skip, h']
    | true => simp [denoiser_should_skip]

/-- C10 (skip-rule divergence): with the force flag unset, on any
input whose denoiser expected-output list is empty, the base contract's
`should_skip` answers `True` (the existence check is vacuous) while the
denoiser's overriding `should_skip` answers `False`. -/
theorem empty_expected_outputs_divergence (D : DenoiserEnv)
    (h : denoiser_get_expected_outputs D = []) :
    base_should_skip false D.exists_ (denoiser_get_expected_outputs D) = true ∧
    denoiser_should_skip false D = false := by
  constructor
  · simp [base_should_skip, check_outputs_exist, h]
  · simp [denoiser_should_skip, h]

/-- Closed instance of `empty_expected_outputs_divergence` at the
missing-`dwi`-directory input. -/
theorem empty_expected_outputs_divergence_witness :
    base_should_skip false (fun _ => false)
        (denoiser_get_expected_outputs
          { dwiDirExists := false, dwiFiles := ["sub-01_dir-AP_dwi.nii.gz"],
            fileOutcome := fun _ => .produced, exists_ := fun _ => false,
            elapsed := 0, outerExc := none })
      = true ∧
    denoiser_should_skip false
        { dwiDirExists := false, dwiFiles := ["sub-01_dir-AP_dwi.nii.gz"],
          fileOutcome := fun _ => .produced, exists_ := fun _ => false,
          elapsed := 0, outerExc := none }
      = false :=
  empty_expected_outputs_divergence _ rfl

theorem lexLe_total (a : List Char) : ∀ b, lexLe a b = true ∨ lexLe b a = true := by
  induction a with
  | nil => intro b; left; rfl
  | cons x xs ih =>
    intro b
    cases b with
    | nil => right; rfl
    | cons y ys =>
      rcases lt_trichotomy x y with h | h | h
      · left; simp [lexLe, h]
      · subst h
        rcases ih ys with h1 | h1
        · left; simp [lexLe, lt_irrefl, h1]
        · right; simp [lexLe, lt_irrefl, h1]
      · right; simp [lexLe, h]

theorem lexLe_trans {a b c : List Char} (h1 : lexLe a b = true) (h2 : lexLe b c = true) :
    lexLe a c = true := by
  induction a generalizing b c with
  | nil => rfl
  | cons x xs ih =>
    cases b with
    | nil => simp [lexLe] at h1
    | cons y ys =>
      cases c with
      | nil => simp [lexLe] at h2
      | cons z zs =>
        by_cases hxy : x < y
        · by_cases hyz : y < z
          · simp [lexLe, lt_trans hxy hyz]
          · by_cases hzy : z < y
            · exfalso
              simp only [lexLe, if_neg hyz, if_pos hzy] at h2
              exact absurd h2 (by simp)
            · have : y = z := le_antisymm (not_lt.mp hzy) (not_lt.mp hyz)
              subst this
              simp [lexLe, hxy]
        · by_cases hyx : y < x
          · simp only [lexLe, if_neg hxy, if_pos hyx] at h1
            exact absurd h1 (by simp)
          · have hxy' : x = y := le_antisymm (not_lt.mp hyx) (not_lt.mp hxy)
            subst hxy'
            simp only [lexLe, if_neg (lt_irrefl x)] at h1
            by_cases hyz : x < z
            · simp [lexLe, hyz]
            · by_cases hzy : z < x
              · simp only [lexLe, if_neg hyz, if_pos hzy] at h2
                exact absurd h2 (by simp)
              · have : x = z := le_antisymm (not_lt.mp hzy) (not_lt.mp hyz)
                subst this
                simp only [lexLe, if_neg (lt_irrefl x)] at h1 h2 ⊢
                exact ih h1 h2

theorem perm_orderedInsertStr (s : String) (l : List String) :
    (orderedInsertStr s l).Perm (s :: l) := by
  induction l with
  | nil => exact List.Perm.refl _
  | cons t rest ih =>
    unfold orderedInsertStr
    by_cases h : lexLe s.toList t.toList = true
    · simp only [h, if_true]
      exact List.Perm.refl _
    · have h' : lexLe s.toList t.toList = false := by simpa using h
      simp only [h', if_false, Bool.false_eq_true]
      exact (ih.cons t).trans (List.Perm.swap s t rest)

theorem perm_sortedStrings (l : List String) : (sortedStrings l).Perm l := by
  induction l with
  | nil => exact List.Perm.refl _
  | cons s rest ih =>
    exact (perm_orderedInsertStr s (sortedStrings rest)).trans (ih.cons s)

theorem mem_sortedStrings (l : List String) (s : String) : s ∈ sortedStrings l ↔ s ∈ l :=
  (perm_sortedStrings l).mem_iff

theorem pairwise_orderedInsertStr (s : String) (l : List String)
    (h : List.Pairwise (fun a b : String => lexLe a.toList b.toList = true) l) :
    List.Pairwise (fun a b : String => lexLe a.toList b.toList = true) (orderedInsertStr s l) := by
  induction l with
  | nil => simp [orderedInsertStr]
  | cons t rest ih =>
    obtain ⟨ht, hrest⟩ := List.pairwise_cons.mp h
    unfold orderedInsertStr
    by_cases hle : lexLe s.toList t.toList = true
    · simp only [hle, if_true]
      refine List.pairwise_cons.mpr ⟨?_, h⟩
      intro x hx
      rcases List.mem_cons.mp hx with rfl | hx'
      · exact hle
      · exact lexLe_trans hle (ht x hx')
    · have hle' : lexLe s.toList t.toList = false := by simpa using hle
      have hts : lexLe t.toList s.toList = true := by
        rcases lexLe_total s.toList t.toList with h1 | h1
        · rw [h1] at hle'; exact absurd hle' (by simp)
        · exact h1
      simp only [hle', if_false, Bool.false_eq_true]
      refine List.pairwise_cons.mpr ⟨?_, ih hrest⟩
      intro x hx
      rcases List.mem_cons.mp ((perm_orderedInsertStr s rest).mem_iff.mp hx) with rfl | hx2
      · exact hts
      · exact ht x hx2

theorem pairwise_sortedStrings (l : List String) :
    List.Pairwise (fun a b : String => lexLe a.toList b.toList = true) (sortedStrings l) := by
  induction l with
  | nil => simp [sortedStrings]
  | cons s rest ih => exact pairwise_orderedInsertStr s (sortedStrings rest) ih

/-- C8 counterexample: with the filter pattern `001`, the subject
`0010` — which merely *begins* with a match of the pattern and is not a
full anchored match — is retained by discovery, because the code filters
with `pattern.match`, which only anchors at the start. -/
theorem discovery_full_match_claim_false :
    discover_subjects true false ["0010"] (some (rxLit "001".toList)) = ["0010"] ∧
    rxFullMatch (rxLit "001".toList) "0010" = false := by
  constructor <;> rfl

/-- C8 amended (discovery filtering): with a filter configured,
discovery retains exactly the identifiers on which the pattern matches
*at the start* (Python `re.match`: anchored at the beginning of the
identifier only, not at its end), and returns them sorted in ascending
code-point order — in the flat fallback branch the identifiers are the
non-hidden entry names, in the BIDS branch they are the `sub-`-stripped
entry names. -/
theorem discovery_filter_characterization :
    (∀ (dataDirExists is_bids : Bool) (entries : List String) (flt : Option Rx),
      List.Pairwise (fun a b : String => lexLe a.toList b.toList = true)
        (discover_subjects dataDirExists is_bids entries flt)) ∧
    (∀ (entries : List String) (p : Rx) (s : String),
      s ∈ discover_subjects true false entries (some p)
        ↔ s ∈ entries ∧ strStartsWith s "." = false ∧ reMatch p s = true) ∧
    (∀ (entries : List String) (p : Rx) (s : String),
      s ∈ discover_subjects true true entries (some p)
        ↔ (∃ n ∈ entries, strStartsWith n "sub-" = true ∧ (⟨n.toList.drop 4⟩ : String) = s)
            ∧ reMatch p s = true) := by
  refine ⟨?_, ?_, ?_⟩
  · intro dataDirExists is_bids entries flt
    unfold discover_subjects
    by_cases hd : dataDirExists
    · simp only [hd, not_true, if_false]
      exact pairwise_sortedStrings _
    · have hd' : dataDirExists = false := by simpa using hd
      simp [hd']
  · intro entries p s
    unfold discover_subjects
    simp only [not_true, if_false, if_true, Bool.true_eq_false, Bool.false_eq_true]
    rw [mem_sortedStrings]
    simp only [List.mem_filter]
    constructor
    · rintro ⟨⟨hmem, hdot⟩, hmatch⟩
      exact ⟨hmem, by simpa using hdot, hmatch⟩
    · rintro ⟨hmem, hdot, hmatch⟩
      exact ⟨⟨hmem, by simpa using hdot⟩, hmatch⟩
  · intro entries p s
    unfold discover_subjects bids_get_subjects
    simp only [not_true, if_false, if_true, Bool.true_eq_false, Bool.false_eq_true]
    rw [mem_sortedStrings, mem_sortedStrings]
    simp only [List.mem_filter, List.mem_map]
    constructor
    · rintro ⟨⟨n, hn, hns⟩, hmatch⟩
      exact ⟨⟨n, hn.1, hn.2, hns⟩, hmatch⟩
    · rintro ⟨⟨n, hnmem, hnpre, hns⟩, hmatch⟩
      exact ⟨⟨n, ⟨hnmem, hnpre⟩, hns⟩, hmatch⟩

end Subtract
